import Mathlib

/-! Verification model of gtdbtk/external/mash.py: a shallow embedding of the
Mash wrapper (distance-file parsing, result re-keying, sketch-file caching and
consistency checking, reference-sketch path normalisation, the version probe
and subprocess argument construction), together with theorems checking the
module specification against it.  Python dicts are modelled as association
lists with in-place overwrite on duplicate keys, Python floats as exact
rationals (decimal and exponent notation with ASCII digits; IEEE rounding,
inf/nan and underscore separators are abstracted away), and the regular
expression scan of the distance file is modelled by an explicit greedy
backtracking matcher specialised to the pattern appearing in the source. -/

namespace Gtdbtk

/-- Lookup in a Python-style dictionary modelled as an association list whose
keys are kept distinct: the value of the first (hence only) matching key. -/
def dget {α β : Type} [DecidableEq α] : List (α × β) → α → Option β
  | [], _ => none
  | (a, b) :: t, k => if a = k then some b else dget t k

/-- Python dict assignment `d[k] = v`: replaces the value in place when the
key is already present, otherwise appends the new binding at the end
(insertion order, as Python dicts preserve it). -/
def dinsert {α β : Type} [DecidableEq α] : List (α × β) → α → β → List (α × β)
  | [], k, v => [(k, v)]
  | (a, b) :: t, k, v => if a = k then (k, v) :: t else (a, b) :: dinsert t k v

/-- A Python dict built by iterating over a list of key/value pairs, later
pairs overwriting earlier ones (the semantics of a dict comprehension). -/
def dictOf {α β : Type} [DecidableEq α] (l : List (α × β)) : List (α × β) :=
  l.foldl (fun acc p => dinsert acc p.1 p.2) []

/-- os.path.basename on POSIX: everything after the last slash. -/
def basenameL (p : List Char) : List Char :=
  (p.reverse.takeWhile (fun c => c ≠ '/')).reverse

/-- os.path.basename on POSIX, on strings. -/
def basename (p : String) : String := ⟨basenameL p.data⟩

/-- os.path.dirname on POSIX: the part before the last slash; the result
keeps no trailing slashes unless it consists only of slashes. -/
def dirnameL (p : List Char) : List Char :=
  let head := (p.reverse.dropWhile (fun c => c ≠ '/')).reverse
  if head ≠ [] ∧ ¬ head.all (fun c => c = '/') then
    (head.reverse.dropWhile (fun c => c = '/')).reverse
  else head

/-- os.path.dirname on POSIX, on strings. -/
def dirname (p : String) : String := ⟨dirnameL p.data⟩

/-- Python str.endswith, on character lists. -/
def endsWithL (s suffixChars : List Char) : Bool :=
  suffixChars.reverse.isPrefixOf s.reverse

/-- Python str.startswith. -/
def strStarts (s pre : String) : Bool :=
  pre.data.isPrefixOf s.data

/-- os.path.join(root, name) on POSIX for two components. -/
def pathJoin (root name : String) : String :=
  if strStarts name "/" then name
  else if root = "" ∨ endsWithL root.data ['/'] then root ++ name
  else root ++ "/" ++ name

/-! ## The distance-file parser (DistanceFile.read)

The source reads the whole result file and runs
re.findall over the pattern of five tab-separated fields ending in
digits, a slash, digits and a newline.  Since the dot and the digit class
do not match a newline and the pattern ends in exactly one newline, every
match lies inside a single newline-terminated segment of the file and ends
at that segment's newline; and because the pattern starts with a greedy
dot-group, a match starting anywhere inside a segment extends to a match
starting at the segment's beginning.  Hence findall returns, for each
newline-terminated segment in order, the unique greedy anchored match of
the pattern (without the final newline) against the whole segment, when it
exists; a trailing unterminated segment never matches.  The functions
below implement exactly that: the segment split, and a greedy backtracking
matcher specialised to the pattern. -/

/-- The newline-terminated segments of the file content, in order; a
trailing piece not terminated by a newline is dropped. -/
def splitSegs : List Char → List (List Char)
  | [] => []
  | c :: rest =>
    if c = '\n' then [] :: splitSegs rest
    else
      match splitSegs rest with
      | [] => []
      | seg :: segs => (c :: seg) :: segs

/-- All decompositions of a list as group, tab, remainder — ordered with the
longest group first, which is the order a greedy dot-group tries them. -/
def tabSplitsAll : List Char → List (List Char × List Char)
  | [] => []
  | c :: rest =>
    if c = '\t' then
      ((tabSplitsAll rest).map (fun p => (c :: p.1, p.2))) ++ [([], rest)]
    else (tabSplitsAll rest).map (fun p => (c :: p.1, p.2))

/-- Anchored match of digits, a slash, digits against a whole list.  The
first digit group is greedy; backtracking it can never help because a
shorter first group would be followed by a digit rather than the slash. -/
def matchFrac (s : List Char) : Option (List Char × List Char) :=
  let d1 := s.takeWhile Char.isDigit
  match s.dropWhile Char.isDigit with
  | '/' :: d2 =>
    if d1 ≠ [] ∧ d2 ≠ [] ∧ d2.all Char.isDigit then some (d1, d2) else none
  | _ => none

/-- Greedy backtracking match of k copies of (nonempty group, tab) followed
by the digits/digits tail, anchored at both ends. -/
def matchGroups : Nat → List Char → Option (List (List Char) × List Char × List Char)
  | 0, s => (matchFrac s).map (fun p => (([] : List (List Char)), p.1, p.2))
  | k + 1, s =>
    (tabSplitsAll s).findSome? (fun p =>
      if p.1 = [] then none
      else (matchGroups k p.2).map (fun q => (p.1 :: q.1, q.2)))

/-- One parsed row of the distance file: the six capture groups of the
pattern, in source order. -/
structure RawRow where
  refId : List Char
  qryId : List Char
  dist : List Char
  pval : List Char
  num : List Char
  den : List Char
  deriving DecidableEq, Repr

/-- The match of the full five-field pattern against one newline-terminated
segment (the newline removed). -/
def matchLine (s : List Char) : Option RawRow :=
  match matchGroups 4 s with
  | some ([g1, g2, g3, g4], d1, d2) => some ⟨g1, g2, g3, g4, d1, d2⟩
  | _ => none

/-- The whitespace characters stripped by Python str.strip() and accepted
around float literals (ASCII subset). -/
def pyWs (c : Char) : Bool :=
  c = ' ' ∨ c = '\t' ∨ c = '\n' ∨ c = '\r' ∨ c = '\x0B' ∨ c = '\x0C'

/-- The numeric value of a string of ASCII digits, as read by Python int(). -/
def digitsVal (l : List Char) : ℕ :=
  l.foldl (fun acc c => acc * 10 + (c.toNat - '0'.toNat)) 0

/-- The exponent digits of a float literal, applied to the mantissa. -/
def expDigits (base : ℚ) (neg : Bool) (s : List Char) : Option ℚ :=
  if s ≠ [] ∧ s.all Char.isDigit then
    some (base * (10 : ℚ) ^ (if neg then -(digitsVal s : ℤ) else (digitsVal s : ℤ)))
  else none

/-- The optional exponent part of a float literal. -/
def pyExpTail (base : ℚ) (s : List Char) : Option ℚ :=
  match s with
  | [] => some base
  | 'e' :: rest | 'E' :: rest =>
    match rest with
    | '+' :: ds => expDigits base false ds
    | '-' :: ds => expDigits base true ds
    | ds => expDigits base false ds
  | _ => none

/-- An unsigned float literal: integer part, optional fraction, optional
exponent; at least one digit around the decimal point. -/
def pyFloatUnsigned (s : List Char) : Option ℚ :=
  let ip := s.takeWhile Char.isDigit
  match s.dropWhile Char.isDigit with
  | '.' :: rest2 =>
    let fp := rest2.takeWhile Char.isDigit
    let rest3 := rest2.dropWhile Char.isDigit
    if ip = [] ∧ fp = [] then none
    else pyExpTail ((digitsVal ip : ℚ) + (digitsVal fp : ℚ) / (10 : ℚ) ^ fp.length) rest3
  | rest => if ip = [] then none else pyExpTail (digitsVal ip : ℚ) rest

/-- Python float(str) modelled over the exact rationals: surrounding
whitespace and an optional sign, then decimal/exponent notation.  Returns
none where Python raises ValueError. -/
def pyFloat (s : List Char) : Option ℚ :=
  let t := ((s.dropWhile pyWs).reverse.dropWhile pyWs).reverse
  match t with
  | '+' :: rest => pyFloatUnsigned rest
  | '-' :: rest => (pyFloatUnsigned rest).map (fun q => -q)
  | rest => pyFloatUnsigned rest

/-- One retained distance record: distance, p-value, shared-hash numerator
and denominator. -/
abbrev MashHit := ℚ × ℚ × ℕ × ℕ

/-- The two-level defaultdict returned by DistanceFile.read, modelled as a
map keyed by the pair (query id, reference base name). -/
abbrev DistMap := List ((String × String) × MashHit)

/-- Processing of one parsed row by DistanceFile.read: convert distance and
p-value with float() — a ValueError if either fails — then keep the row only
when the distance is at most the caller threshold, storing it under the
query id and the base name of the reference id. -/
def readRow (maxMashDist : ℚ) (out : DistMap) (r : RawRow) : Except String DistMap :=
  match pyFloat r.dist, pyFloat r.pval with
  | some dist, some pval =>
    .ok (if dist ≤ maxMashDist then
          dinsert out (⟨r.qryId⟩, ⟨basenameL r.refId⟩)
            (dist, pval, digitsVal r.num, digitsVal r.den)
        else out)
  | _, _ => .error "could not convert string to float"

/-- DistanceFile.read on the file content, as characters. -/
def readC (content : List Char) (maxMashDist : ℚ) : Except String DistMap :=
  ((splitSegs content).filterMap matchLine).foldlM (readRow maxMashDist) []

/-- DistanceFile.read: findall over the content, then the per-row filter
and two-level insertion. -/
def DistanceFile.read (content : String) (maxMashDist : ℚ) : Except String DistMap :=
  readC content.data maxMashDist

/-! ## Re-keying in Mash.run -/

/-- The dict comprehension inverting a genome map: path to caller id. -/
def invert (d : List (String × String)) : List (String × String) :=
  dictOf (d.map (fun p => (p.2, p.1)))

/-- The dict comprehension from reference base name to current full path. -/
def currentRefMap (ref : List (String × String)) : List (String × String) :=
  dictOf (ref.map (fun p => (basename p.2, p.2)))

/-- One iteration of the re-keying loop at the end of Mash.run, with the
source's evaluation order of the three dictionary lookups: the reference
base name to its current path, the query path to its caller id, the current
reference path to its caller id; none models the KeyError a missing key
would raise.  The three dictionaries are pure values built once before the
loop in the source; recomputing them per iteration is equivalent. -/
def rekeyStep (qry ref : List (String × String)) (out : DistMap)
    (e : (String × String) × MashHit) : Option DistMap := do
  let crp ← dget (currentRefMap ref) e.1.2
  let q ← dget (invert qry) e.1.1
  let r ← dget (invert ref) crp
  pure (dinsert out (q, r) e.2)

/-- The re-keying loop at the end of Mash.run: for every parsed hit, resolve
the reference base name to its current path, then both paths to caller ids. -/
def rekey (qry ref : List (String × String)) (results : DistMap) : Option DistMap :=
  results.foldlM (rekeyStep qry ref) []

/-- The key translation the loop applies: the pair of caller ids a parsed
key resolves to. -/
def rekeyKey (qry ref : List (String × String)) (key : String × String) :
    Option (String × String) := do
  let crp ← dget (currentRefMap ref) key.2
  let q ← dget (invert qry) key.1
  let r ← dget (invert ref) crp
  pure (q, r)

/-! ## The version probe -/

/-- The outcome of the external version query: either some exception was
raised while invoking the tool (missing binary, invocation error), or the
process completed with the given stdout and stderr text. -/
inductive ProbeOutcome where
  | raised (msg : String)
  | completed (stdout stderr : String)

/-- Python str.strip() (ASCII whitespace). -/
def pyStrip (s : String) : String :=
  ⟨((s.data.dropWhile pyWs).reverse.dropWhile pyWs).reverse⟩

/-- Mash.version: any exception yields the sentinel, empty stdout yields the
sentinel, otherwise the stripped stdout is returned.  Total on every
outcome — the except-clause catches all exceptions, so the probe never
raises. -/
def Mash.version (o : ProbeOutcome) : String :=
  match o with
  | .raised _ => "unknown"
  | .completed stdout _ => if stdout.length > 0 then pyStrip stdout else "unknown"

/-! ## Error paths of the subprocess invocations -/

/-- Errors raised by the module: GTDBTkExit (modelled from the spec: the
repository's fatal-error exception type, defined outside this file's
sources) carrying a message, or a Python ValueError. -/
inductive PyErr where
  | gtdbtkExit (msg : String)
  | valueError (msg : String)
  deriving DecidableEq

/-- The state of the subprocess stderr pipe at the moment the source calls
proc.stderr.read() to build an error message: after communicate() the pipe
object has been closed; after the progress loop read it line by line to the
end it is still open but exhausted. -/
inductive StderrStream where
  | closedByCommunicate
  | exhausted

/-- Python read() on such a stream: reading a closed file raises ValueError,
reading an open exhausted stream returns the empty string. -/
def strOfStream : StderrStream → Except String String
  | .closedByCommunicate => .error "I/O operation on closed file."
  | .exhausted => .ok ""

/-- The error path of DistanceFile._calculate: communicate() captured stderr
into a local (which the source never uses again) and closed the pipe; on a
nonzero exit status the source evaluates proc.stderr.read() to build the
message. -/
def DistanceFile.calculate (returncode : Int) (stderrCaptured : String) : Except PyErr Unit :=
  if returncode ≠ 0 then
    match strOfStream .closedByCommunicate with
    | .error e => .error (.valueError e)
    | .ok s => .error (.gtdbtkExit ("Error running Mash dist: " ++ s))
  else .ok ()

/-- The error path of SketchFile._generate: the progress loop consumed
stderr to exhaustion; on a nonzero exit status or a missing output file the
source evaluates proc.stderr.read() to build the message. -/
def SketchFile.generate (returncode : Int) (stderrConsumed : String) (outputIsFile : Bool) :
    Except PyErr Unit :=
  if returncode ≠ 0 ∨ outputIsFile = false then
    match strOfStream .exhausted with
    | .error e => .error (.valueError e)
    | .ok s => .error (.gtdbtkExit ("Error generating Mash sketch: " ++ s))
  else .ok ()

/-- SketchFile._load_metadata: on a nonzero exit status of the inspection
subcommand, a GTDBTkExit whose message carries the captured stderr;
otherwise the metadata triples parsed from stdout (the stdout text scrape
itself is not needed by any claim, so the parsed triples are passed in). -/
def SketchFile.loadMetadata (path : String) (returncode : Int) (stderr : String)
    (parsedData : List (String × ℕ × ℕ)) : Except PyErr (List (String × ℕ × ℕ)) :=
  if returncode ≠ 0 then
    .error (.gtdbtkExit ("Error reading Mash sketch file " ++ path ++ ":\n" ++ stderr))
  else .ok parsedData

/-- Substring test used to state facts about error messages. -/
def hasSub (hay needle : List Char) : Bool :=
  (List.range (hay.length + 1)).any (fun i => needle.isPrefixOf (hay.drop i))

/-! ## SketchFile construction -/

/-- How a SketchFile construction ended when no error was raised: the
artifact was loaded from disk, or the generation step ran. -/
inductive SketchOutcome where
  | loaded
  | generated
  deriving DecidableEq

/-- SketchFile._is_consistent: set equality of the base names embedded in
the artifact and the base names of the current genome paths. -/
def isConsistent (data : List (String × ℕ × ℕ)) (genomes : List (String × String)) : Bool :=
  (data.map (fun p => basename p.1)).toFinset = (genomes.map (fun p => basename p.2)).toFinset

/-- SketchFile.__init__ after make_sure_path_exists: when a file already
exists at the target path, load its metadata and validate consistency —
raising on mismatch — and never generate; otherwise generate.  The
subprocess outcome of the inspection subcommand is passed in. -/
def SketchFile.construct (existsAtPath : Bool) (path : String) (infoReturncode : Int)
    (infoStderr : String) (infoData : List (String × ℕ × ℕ))
    (genomes : List (String × String)) : Except PyErr SketchOutcome :=
  if existsAtPath then
    match SketchFile.loadMetadata path infoReturncode infoStderr infoData with
    | .error e => .error e
    | .ok data =>
      if isConsistent data genomes then .ok .loaded
      else .error (.gtdbtkExit ("The sketch file is not consistent with the input genomes. Remove the existing sketch file or specify a new output directory."))
  else .ok .generated

/-! ## RefSketchFile path resolution -/

/-- Modelled from the spec: Config.MASH_SKETCH_FILE, the fixed default
reference-sketch file name (the config module is outside this file's
sources; the claims use the constant only opaquely). -/
def MASH_SKETCH_FILE : String := "gtdb_ref_sketch.msh"

/-- Python str.rstrip('\\') on character lists: removes trailing backslash
characters. -/
def rstripBackslashL (l : List Char) : List Char :=
  (l.reverse.dropWhile (fun c => c = '\\')).reverse

/-- Python str.rstrip('\\'). -/
def rstripBackslash (s : String) : String :=
  ⟨rstripBackslashL s.data⟩

/-- The normalisation RefSketchFile.__init__ applies to a supplied
reference-database path: strip trailing backslashes, then append the .msh
suffix when missing. -/
def refNormalize (mash_db : String) : String :=
  let e1 := rstripBackslash mash_db
  if endsWithL e1.data ".msh".data then e1 else e1 ++ ".msh"

/-- RefSketchFile.__init__ path resolution: with a supplied database path,
normalise it, fail when an existing directory sits at the normalised path,
otherwise ensure the parent directory exists (the returned list records the
directory-creation calls made; make_sure_path_exists is modelled from the
spec as the filesystem utility ensuring directory existence) and use it;
with no supplied path, the fixed default name under the output directory
with the run prefix. -/
def RefSketchFile.resolvePath (mash_db : Option String) (isDir : String → Bool)
    (root pfx : String) : Except String (String × List String) :=
  match mash_db with
  | some db =>
    let export_msh := refNormalize db
    if isDir export_msh then .error (export_msh ++ " is a directory")
    else .ok (export_msh, [dirname export_msh])
  | none => .ok (pathJoin root (pfx ++ "." ++ MASH_SKETCH_FILE), [])

/-! ## Mash.__init__ and the subprocess argument lists -/

/-- The concurrency hint stored by Mash.__init__. -/
def Mash.initCpus (cpus : Int) : Int := max cpus 1

/-- The argument list of the distance subcommand built by
DistanceFile._calculate (the numeric thresholds are passed through str();
their text form is irrelevant to the claims and kept opaque). -/
def DistanceFile.calculateArgs (cpus : Int) (maxD mashV refSketchPath qrySketchPath : String) :
    List String :=
  ["mash", "dist", "-p", toString cpus, "-d", maxD, "-v", mashV, refSketchPath, qrySketchPath]

/-- The argument list of the sketch subcommand built by
SketchFile._generate. -/
def SketchFile.generateArgs (cpus : Int) (pathGenomes outPath : String) (k s : Int) :
    List String :=
  ["mash", "sketch", "-l", "-p", toString cpus, pathGenomes, "-o", outPath,
   "-k", toString k, "-s", toString s]

/-- The value following a flag in an argument list. -/
def argAfter : List String → String → Option String
  | [], _ => none
  | [_], _ => none
  | a :: b :: rest, flag => if a = flag then some b else argAfter (b :: rest) flag

/-! ## Helper lemmas -/

theorem isPrefixOf_self_append (l t : List Char) : l.isPrefixOf (l ++ t) = true := by
  induction l with
  | nil => simp [List.isPrefixOf]
  | cons c cs ih => simp [List.isPrefixOf, ih]

theorem endsWithL_append (a b : List Char) : endsWithL (a ++ b) b = true := by
  simp only [endsWithL, List.reverse_append]
  exact isPrefixOf_self_append b.reverse a.reverse

theorem string_ne_empty_length_pos (s : String) (hs : s ≠ "") : 0 < s.length := by
  cases s with
  | mk data =>
    cases data with
    | nil => exact absurd rfl hs
    | cons c cs => simp [String.length]

/-! ## Claim theorems: version probe, concurrency hint, error diagnostics,
sketch consistency, reference path resolution -/

/-- C8: the version probe is total on every outcome of the external query —
the except-clause catches all exceptions — returning the sentinel on a
raised exception and on empty output, and the stripped stdout text
otherwise. -/
theorem mash_version_probe :
    (∀ e, Mash.version (.raised e) = "unknown") ∧
    (∀ err, Mash.version (.completed "" err) = "unknown") ∧
    (∀ s err, s ≠ "" → Mash.version (.completed s err) = pyStrip s) := by
  refine ⟨fun e => rfl, fun err => rfl, fun s err hs => ?_⟩
  show (if s.length > 0 then pyStrip s else "unknown") = pyStrip s
  rw [if_pos]
  exact string_ne_empty_length_pos s hs

/-- Witness for C8: a completed probe with nonempty output returns the
stripped text. -/
theorem mash_version_probe_witness :
    ("mash 2.2.2\n" : String) ≠ "" ∧
    Mash.version (.completed "mash 2.2.2\n" "") = "mash 2.2.2" :=
  ⟨by decide, by rw [mash_version_probe.2.2 "mash 2.2.2\n" "" (by decide)]; rfl⟩

/-- C10: Mash.__init__ stores max(cpus, 1) as its concurrency hint — at
least 1 for every integer cpus, zero and negatives included — and both the
distance and the sketch invocation receive exactly that value after their
-p flag. -/
theorem mash_cpus_at_least_one (cpus : Int) (maxD mashV refP qryP pathGenomes outP : String)
    (k s : Int) :
    1 ≤ Mash.initCpus cpus ∧ Mash.initCpus cpus = max cpus 1 ∧
    argAfter (DistanceFile.calculateArgs (Mash.initCpus cpus) maxD mashV refP qryP) "-p"
      = some (toString (Mash.initCpus cpus)) ∧
    argAfter (SketchFile.generateArgs (Mash.initCpus cpus) pathGenomes outP k s) "-p"
      = some (toString (Mash.initCpus cpus)) :=
  ⟨le_max_right cpus 1, rfl, rfl, rfl⟩

/-- C4 (documenting a code bug): on a nonzero exit of the distance
subcommand the source evaluates proc.stderr.read() on the pipe that
communicate() already closed, so a ValueError is raised instead of a
GTDBTkExit carrying the captured diagnostics; on a failed sketch generation
the stream was already exhausted by the progress loop, so the raised
GTDBTkExit carries an empty diagnostic text; only the metadata-load error
message carries the captured stderr. -/
theorem mash_diagnostics_lost :
    DistanceFile.calculate 1 "boom" = .error (.valueError "I/O operation on closed file.") ∧
    hasSub "I/O operation on closed file.".data "boom".data = false ∧
    SketchFile.generate 1 "boom" true = .error (.gtdbtkExit "Error generating Mash sketch: ") ∧
    SketchFile.generate 0 "boom" false = .error (.gtdbtkExit "Error generating Mash sketch: ") ∧
    hasSub "Error generating Mash sketch: ".data "boom".data = false ∧
    SketchFile.loadMetadata "ref.msh" 1 "boom" []
      = .error (.gtdbtkExit "Error reading Mash sketch file ref.msh:\nboom") ∧
    hasSub "Error reading Mash sketch file ref.msh:\nboom".data "boom".data = true :=
  ⟨rfl, by decide, rfl, rfl, by decide, rfl, by decide⟩

/-- C3: with an artifact present at the path and its metadata read
successfully, construction succeeds — by loading, never by generating —
exactly when the base-name set embedded in the artifact equals the base-name
set of the genome paths; a mismatch raises the configuration error, and the
generation step never runs on an existing artifact. -/
theorem sketchfile_consistency (path : String) (rc : Int) (stderr : String)
    (data : List (String × ℕ × ℕ)) (genomes : List (String × String)) (hrc : rc = 0) :
    (SketchFile.construct true path rc stderr data genomes = .ok .loaded ↔
      (data.map (fun p => basename p.1)).toFinset
        = (genomes.map (fun p => basename p.2)).toFinset) ∧
    ((data.map (fun p => basename p.1)).toFinset
        ≠ (genomes.map (fun p => basename p.2)).toFinset →
      SketchFile.construct true path rc stderr data genomes
        = .error (.gtdbtkExit "The sketch file is not consistent with the input genomes. Remove the existing sketch file or specify a new output directory.")) ∧
    (∀ ex rc2 st2 d2 g2, SketchFile.construct ex path rc2 st2 d2 g2 = .ok .generated →
      ex = false) := by
  subst hrc
  refine ⟨?_, ?_, ?_⟩
  · by_cases h : (data.map (fun p => basename p.1)).toFinset
        = (genomes.map (fun p => basename p.2)).toFinset <;>
      simp [SketchFile.construct, SketchFile.loadMetadata, isConsistent, h]
  · intro h
    simp [SketchFile.construct, SketchFile.loadMetadata, isConsistent, h]
  · intro ex rc2 st2 d2 g2 h
    cases ex with
    | false => rfl
    | true =>
      exfalso
      by_cases h2 : rc2 = 0
      · subst h2
        by_cases h3 : isConsistent d2 g2 = true <;>
          simp [SketchFile.construct, SketchFile.loadMetadata, h3] at h
      · simp [SketchFile.construct, SketchFile.loadMetadata, h2] at h

/-- Witness for C3: a relocated artifact with matching base names loads; a
differing base name raises the configuration error. -/
theorem sketchfile_consistency_witness :
    SketchFile.construct true "q.msh" 0 "" [("/old/a.fna", (100, 5))] [("g1", "/new/a.fna")]
      = .ok .loaded ∧
    SketchFile.construct true "q.msh" 0 "" [("/old/a.fna", (100, 5))] [("g1", "/new/b.fna")]
      = .error (.gtdbtkExit "The sketch file is not consistent with the input genomes. Remove the existing sketch file or specify a new output directory.") :=
  ⟨(sketchfile_consistency "q.msh" 0 "" [("/old/a.fna", (100, 5))] [("g1", "/new/a.fna")]
      rfl).1.mpr (by decide),
   (sketchfile_consistency "q.msh" 0 "" [("/old/a.fna", (100, 5))] [("g1", "/new/b.fna")]
      rfl).2.1 (by decide)⟩

/-- C5 (amended): the supplied reference-database path is normalised by
stripping trailing backslash characters — not POSIX slash separators — and
appending the .msh suffix when missing; an existing directory at the
normalised path fails construction before any directory creation; with no
supplied path the fixed default name under the output directory with the
run prefix is used. -/
theorem refsketch_path_resolution (db root pfx : String) (isDir : String → Bool) :
    (∀ l : List Char, rstripBackslashL (l ++ ['\\']) = rstripBackslashL l) ∧
    endsWithL (refNormalize db).data ".msh".data = true ∧
    (isDir (refNormalize db) = true →
      RefSketchFile.resolvePath (some db) isDir root pfx
        = .error (refNormalize db ++ " is a directory")) ∧
    (isDir (refNormalize db) = false →
      RefSketchFile.resolvePath (some db) isDir root pfx
        = .ok (refNormalize db, [dirname (refNormalize db)])) ∧
    RefSketchFile.resolvePath none isDir root pfx
      = .ok (pathJoin root (pfx ++ "." ++ MASH_SKETCH_FILE), []) := by
  refine ⟨?_, ?_, ?_, ?_, rfl⟩
  · intro l
    simp [rstripBackslashL]
  · unfold refNormalize
    by_cases h : endsWithL (rstripBackslash db).data ".msh".data = true
    · simp [h]
    · have hd : ((rstripBackslash db ++ ".msh").data)
          = (rstripBackslash db).data ++ ".msh".data := String.data_append _ _
      simp only [h, if_neg, Bool.not_eq_true, if_false, hd]
      exact endsWithL_append _ _
  · intro h
    simp [RefSketchFile.resolvePath, h]
  · intro h
    simp [RefSketchFile.resolvePath, h]

/-- Witness for C5: trailing backslashes are stripped and the suffix
appended; a directory at the normalised path is refused; the default path
is used when no database path is supplied. -/
theorem refsketch_path_resolution_witness :
    RefSketchFile.resolvePath (some "ref\\") (fun _ => false) "out" "run1"
      = .ok ("ref.msh", [""]) ∧
    RefSketchFile.resolvePath (some "d2") (fun s => s == "d2.msh") "out" "run1"
      = .error "d2.msh is a directory" ∧
    RefSketchFile.resolvePath none (fun _ => false) "out" "run1"
      = .ok ("out/run1.gtdb_ref_sketch.msh", []) := by
  refine ⟨?_, ?_, ?_⟩
  · rw [(refsketch_path_resolution "ref\\" "out" "run1" (fun _ => false)).2.2.2.1 rfl]
    rfl
  · rw [(refsketch_path_resolution "d2" "out" "run1" (fun s => s == "d2.msh")).2.2.1 (by decide)]
    rfl
  · rw [(refsketch_path_resolution "x" "out" "run1" (fun _ => false)).2.2.2.2]
    rfl

/-- C5 counterexample: a supplied path ending in the POSIX separator is not
stripped — the code appends the suffix after the slash, where stripping
path separators as claimed would give db.msh. -/
theorem refsketch_separator_counterexample :
    RefSketchFile.resolvePath (some "db/") (fun _ => false) "out" "p"
      = .ok ("db/.msh", ["db"]) ∧ ("db/.msh" : String) ≠ "db.msh" :=
  ⟨rfl, by decide⟩

/-! ## Lemmas about the segment split -/

theorem splitSegs_nil_of_no_nl (s : List Char) (h : '\n' ∉ s) : splitSegs s = [] := by
  induction s with
  | nil => rfl
  | cons c cs ih =>
    have hc : ¬ c = '\n' := fun he => h (he ▸ List.mem_cons_self c cs)
    have hcs : '\n' ∉ cs := fun hm => h (List.mem_cons_of_mem c hm)
    simp [splitSegs, hc, ih hcs]

theorem splitSegs_append_nl (s t : List Char) (h : '\n' ∉ s) :
    splitSegs (s ++ '\n' :: t) = s :: splitSegs t := by
  induction s with
  | nil => simp [splitSegs]
  | cons c cs ih =>
    have hc : ¬ c = '\n' := fun he => h (he ▸ List.mem_cons_self c cs)
    have hcs : '\n' ∉ cs := fun hm => h (List.mem_cons_of_mem c hm)
    simp [splitSegs, hc, ih hcs]

theorem splitSegs_append_no_nl (s t : List Char) (h : '\n' ∉ t) :
    splitSegs (s ++ t) = splitSegs s := by
  induction s with
  | nil => simpa using splitSegs_nil_of_no_nl t h
  | cons c cs ih =>
    by_cases hc : c = '\n'
    · subst hc; simp [splitSegs, ih]
    · simp [splitSegs, hc, ih]

/-! ## Lemmas about the greedy matcher -/

theorem tabSplitsAll_mem (s : List Char) : ∀ g rest : List Char,
    (g, rest) ∈ tabSplitsAll s → s = g ++ '\t' :: rest := by
  induction s with
  | nil => intro g rest h; simp [tabSplitsAll] at h
  | cons c cs ih =>
    intro g rest h
    by_cases hc : c = '\t'
    · subst hc
      rw [show tabSplitsAll ('\t' :: cs)
          = ((tabSplitsAll cs).map (fun p => ('\t' :: p.1, p.2))) ++ [([], cs)] from by
        simp [tabSplitsAll]] at h
      rcases List.mem_append.mp h with hm | hm
      · obtain ⟨⟨a, b⟩, hab, heq⟩ := List.mem_map.mp hm
        have h1e : '\t' :: a = g := congrArg Prod.fst heq
        have h2e : b = rest := congrArg Prod.snd heq
        subst h1e; subst h2e
        rw [ih a b hab]; rfl
      · have heq := List.mem_singleton.mp hm
        have h1e : g = ([] : List Char) := congrArg Prod.fst heq
        have h2e : rest = cs := congrArg Prod.snd heq
        subst h1e; subst h2e; rfl
    · rw [show tabSplitsAll (c :: cs)
          = (tabSplitsAll cs).map (fun p => (c :: p.1, p.2)) from by
        simp [tabSplitsAll, hc]] at h
      obtain ⟨⟨a, b⟩, hab, heq⟩ := List.mem_map.mp h
      have h1e : c :: a = g := congrArg Prod.fst heq
      have h2e : b = rest := congrArg Prod.snd heq
      subst h1e; subst h2e
      rw [ih a b hab]; rfl

/-- The number of tab characters in a list. -/
def countTab (s : List Char) : ℕ := (s.filter (fun c => c = '\t')).length

theorem countTab_append (a b : List Char) : countTab (a ++ b) = countTab a + countTab b := by
  simp [countTab, List.filter_append]

theorem countTab_cons_tab (s : List Char) : countTab ('\t' :: s) = countTab s + 1 := by
  simp [countTab, List.filter_cons]

theorem countTab_eq_zero (s : List Char) (h : '\t' ∉ s) : countTab s = 0 := by
  simp only [countTab, List.length_eq_zero]
  rw [List.filter_eq_nil]
  intro c hc he
  exact h ((of_decide_eq_true he) ▸ hc)

theorem findSome?_append_none {α β : Type} (f : α → Option β) (l1 l2 : List α)
    (h : ∀ x ∈ l1, f x = none) : (l1 ++ l2).findSome? f = l2.findSome? f := by
  induction l1 with
  | nil => rfl
  | cons a t ih =>
    have ha := h a (List.mem_cons_self a t)
    have ht : ∀ x ∈ t, f x = none := fun x hx => h x (List.mem_cons_of_mem a hx)
    simp [List.findSome?, ha, ih ht]

theorem findSome?_nil_of_none {α β : Type} (f : α → Option β) (l : List α)
    (h : ∀ x ∈ l, f x = none) : l.findSome? f = none := by
  induction l with
  | nil => rfl
  | cons a t ih =>
    have ha := h a (List.mem_cons_self a t)
    have ht : ∀ x ∈ t, f x = none := fun x hx => h x (List.mem_cons_of_mem a hx)
    simp [List.findSome?, ha, ih ht]

theorem matchGroups_none_of_countTab_lt (k : ℕ) : ∀ s : List Char,
    countTab s < k → matchGroups k s = none := by
  induction k with
  | zero => intro s h; omega
  | succ k ih =>
    intro s h
    show (tabSplitsAll s).findSome? _ = none
    apply findSome?_nil_of_none
    intro p hp
    obtain ⟨g, rest⟩ := p
    have hs := tabSplitsAll_mem s g rest hp
    have hlt : countTab rest < k := by
      rw [hs, countTab_append, countTab_cons_tab] at h
      omega
    by_cases hg : g = [] <;> simp [hg, ih rest hlt]

theorem tabSplitsAll_no_tab (s : List Char) (h : '\t' ∉ s) : tabSplitsAll s = [] := by
  induction s with
  | nil => rfl
  | cons c cs ih =>
    have hc : ¬ c = '\t' := fun he => h (he ▸ List.mem_cons_self c cs)
    have hcs : '\t' ∉ cs := fun hm => h (List.mem_cons_of_mem c hm)
    simp [tabSplitsAll, hc, ih hcs]

theorem tabSplitsAll_append (a b : List Char) (h : '\t' ∉ a) :
    tabSplitsAll (a ++ '\t' :: b)
      = ((tabSplitsAll b).map (fun p => (a ++ '\t' :: p.1, p.2))) ++ [(a, b)] := by
  induction a with
  | nil => simp [tabSplitsAll]
  | cons c cs ih =>
    have hc : ¬ c = '\t' := fun he => h (he ▸ List.mem_cons_self c cs)
    have hcs : '\t' ∉ cs := fun hm => h (List.mem_cons_of_mem c hm)
    rw [List.cons_append]
    rw [show tabSplitsAll (c :: (cs ++ '\t' :: b))
        = (tabSplitsAll (cs ++ '\t' :: b)).map (fun p => (c :: p.1, p.2)) from by
      simp [tabSplitsAll, hc]]
    rw [ih hcs, List.map_append, List.map_map]
    rfl

theorem takeWhile_append_all (p : Char → Bool) (l : List Char) (x : Char) (t : List Char)
    (hl : ∀ c ∈ l, p c = true) (hx : p x = false) :
    (l ++ x :: t).takeWhile p = l ∧ (l ++ x :: t).dropWhile p = x :: t := by
  induction l with
  | nil => simp [List.takeWhile_cons, List.dropWhile_cons, hx]
  | cons c cs ih =>
    have hc := hl c (List.mem_cons_self c cs)
    have hcs : ∀ c ∈ cs, p c = true := fun d hd => hl d (List.mem_cons_of_mem c hd)
    obtain ⟨h1, h2⟩ := ih hcs
    simp [List.takeWhile_cons, List.dropWhile_cons, hc, h1, h2]

theorem matchFrac_eq (d1 d2 : List Char) (h1 : d1 ≠ []) (hd1 : ∀ c ∈ d1, c.isDigit = true)
    (h2 : d2 ≠ []) (hd2 : ∀ c ∈ d2, c.isDigit = true) :
    matchFrac (d1 ++ '/' :: d2) = some (d1, d2) := by
  obtain ⟨ht, hd⟩ := takeWhile_append_all Char.isDigit d1 '/' d2 hd1 (by decide)
  simp only [matchFrac, ht, hd]
  rw [if_pos ⟨h1, h2, List.all_eq_true.mpr hd2⟩]

theorem not_mem_of_digits (x : Char) (d : List Char) (hd : ∀ c ∈ d, c.isDigit = true)
    (hx : x.isDigit = false) : x ∉ d := by
  intro hm
  rw [hd x hm] at hx
  simp at hx

theorem not_mem_append_cons (x y : Char) (a b : List Char) (ha : x ∉ a) (hxy : x ≠ y)
    (hb : x ∉ b) : x ∉ a ++ y :: b := by
  intro hm
  rcases List.mem_append.mp hm with hm | hm
  · exact ha hm
  · rcases List.mem_cons.mp hm with hm | hm
    · exact hxy hm
    · exact hb hm

/-- The row text: the field groups joined by tabs in front of the tail. -/
def tabJoin (gs : List (List Char)) (t : List Char) : List Char :=
  gs.foldr (fun g acc => g ++ '\t' :: acc) t

theorem countTab_tabJoin (gs : List (List Char)) (t : List Char)
    (hgs : ∀ g ∈ gs, '\t' ∉ g) (ht : '\t' ∉ t) :
    countTab (tabJoin gs t) = gs.length := by
  induction gs with
  | nil => simpa [tabJoin] using countTab_eq_zero t ht
  | cons g rest ih =>
    have hg := hgs g (List.mem_cons_self g rest)
    have hrest : ∀ x ∈ rest, '\t' ∉ x := fun x hx => hgs x (List.mem_cons_of_mem g hx)
    show countTab (g ++ '\t' :: tabJoin rest t) = rest.length + 1
    rw [countTab_append, countTab_cons_tab, countTab_eq_zero g hg, ih hrest]
    omega

theorem matchGroups_tabJoin (gs : List (List Char)) (d1 d2 : List Char)
    (hgs : ∀ g ∈ gs, g ≠ [] ∧ '\t' ∉ g)
    (h1 : d1 ≠ []) (hd1 : ∀ c ∈ d1, c.isDigit = true)
    (h2 : d2 ≠ []) (hd2 : ∀ c ∈ d2, c.isDigit = true) :
    matchGroups gs.length (tabJoin gs (d1 ++ '/' :: d2)) = some (gs, d1, d2) := by
  have hfrac : '\t' ∉ d1 ++ '/' :: d2 :=
    not_mem_append_cons '\t' '/' d1 d2 (not_mem_of_digits '\t' d1 hd1 (by decide))
      (by decide) (not_mem_of_digits '\t' d2 hd2 (by decide))
  induction gs with
  | nil =>
    show (matchFrac (d1 ++ '/' :: d2)).map _ = _
    rw [matchFrac_eq d1 d2 h1 hd1 h2 hd2]
    rfl
  | cons g rest ih =>
    have hg := hgs g (List.mem_cons_self g rest)
    have hrest : ∀ x ∈ rest, x ≠ [] ∧ '\t' ∉ x :=
      fun x hx => hgs x (List.mem_cons_of_mem g hx)
    show (tabSplitsAll (g ++ '\t' :: tabJoin rest (d1 ++ '/' :: d2))).findSome? _
      = some (g :: rest, d1, d2)
    rw [tabSplitsAll_append _ _ hg.2]
    rw [findSome?_append_none]
    · have hrec := ih hrest
      simp [List.findSome?, hg.1, hrec]
    · intro p hp
      obtain ⟨⟨a, b⟩, hq, hpe⟩ := List.mem_map.mp hp
      subst hpe
      have hsplit := tabSplitsAll_mem _ a b hq
      have hcnt := countTab_tabJoin rest (d1 ++ '/' :: d2)
        (fun x hx => (hrest x hx).2) hfrac
      rw [hsplit, countTab_append, countTab_cons_tab] at hcnt
      have hlt : countTab b < rest.length := by omega
      have hnone := matchGroups_none_of_countTab_lt rest.length b hlt
      by_cases hpe2 : g ++ '\t' :: a = [] <;> simp [hpe2, hnone]

theorem matchLine_row (g1 g2 g3 g4 d1 d2 : List Char)
    (hg1 : g1 ≠ []) (hg2 : g2 ≠ []) (hg3 : g3 ≠ []) (hg4 : g4 ≠ [])
    (ht1 : '\t' ∉ g1) (ht2 : '\t' ∉ g2) (ht3 : '\t' ∉ g3) (ht4 : '\t' ∉ g4)
    (h1 : d1 ≠ []) (hd1 : ∀ c ∈ d1, c.isDigit = true)
    (h2 : d2 ≠ []) (hd2 : ∀ c ∈ d2, c.isDigit = true) :
    matchLine (g1 ++ ('\t' :: (g2 ++ ('\t' :: (g3 ++ ('\t' :: (g4 ++ ('\t' :: (d1 ++ '/' :: d2)))))))))
      = some ⟨g1, g2, g3, g4, d1, d2⟩ := by
  have hall : ∀ g ∈ [g1, g2, g3, g4], g ≠ [] ∧ '\t' ∉ g := by
    intro g hg
    simp only [List.mem_cons, List.not_mem_nil, or_false] at hg
    rcases hg with rfl | rfl | rfl | rfl
    exacts [⟨hg1, ht1⟩, ⟨hg2, ht2⟩, ⟨hg3, ht3⟩, ⟨hg4, ht4⟩]
  have hmrow := matchGroups_tabJoin [g1, g2, g3, g4] d1 d2 hall h1 hd1 h2 hd2
  simp only [tabJoin, List.foldr_cons, List.foldr_nil] at hmrow
  have h4 : ([g1, g2, g3, g4] : List (List Char)).length = 4 := rfl
  rw [h4] at hmrow
  unfold matchLine
  rw [hmrow]

/-! ## Claim theorems about DistanceFile.read -/

/-- Evaluation of read on a single well-formed newline-terminated row. -/
theorem readC_single_row (g1 g2 g3 g4 d1 d2 : List Char) (maxd dist pval : ℚ)
    (hg1 : g1 ≠ []) (hg2 : g2 ≠ []) (hg3 : g3 ≠ []) (hg4 : g4 ≠ [])
    (ht1 : '\t' ∉ g1) (ht2 : '\t' ∉ g2) (ht3 : '\t' ∉ g3) (ht4 : '\t' ∉ g4)
    (hn1 : '\n' ∉ g1) (hn2 : '\n' ∉ g2) (hn3 : '\n' ∉ g3) (hn4 : '\n' ∉ g4)
    (h1 : d1 ≠ []) (hd1 : ∀ c ∈ d1, c.isDigit = true)
    (h2 : d2 ≠ []) (hd2 : ∀ c ∈ d2, c.isDigit = true)
    (hdist : pyFloat g3 = some dist) (hpval : pyFloat g4 = some pval) :
    readC ((g1 ++ ('\t' :: (g2 ++ ('\t' :: (g3 ++ ('\t' :: (g4 ++ ('\t' :: (d1 ++ '/' :: d2))))))))) ++ ['\n']) maxd
      = .ok (if dist ≤ maxd then
          [((⟨g2⟩, ⟨basenameL g1⟩), (dist, pval, digitsVal d1, digitsVal d2))]
        else []) := by
  have hnd1 : '\n' ∉ d1 := not_mem_of_digits '\n' d1 hd1 (by decide)
  have hnd2 : '\n' ∉ d2 := not_mem_of_digits '\n' d2 hd2 (by decide)
  have hfrac : '\n' ∉ d1 ++ '/' :: d2 :=
    not_mem_append_cons '\n' '/' d1 d2 hnd1 (by decide) hnd2
  have hrow : '\n' ∉ g1 ++ ('\t' :: (g2 ++ ('\t' :: (g3 ++ ('\t' :: (g4 ++ ('\t' :: (d1 ++ '/' :: d2)))))))) :=
    not_mem_append_cons '\n' '\t' _ _ hn1 (by decide)
      (not_mem_append_cons '\n' '\t' _ _ hn2 (by decide)
        (not_mem_append_cons '\n' '\t' _ _ hn3 (by decide)
          (not_mem_append_cons '\n' '\t' _ _ hn4 (by decide) hfrac)))
  have hline := matchLine_row g1 g2 g3 g4 d1 d2 hg1 hg2 hg3 hg4 ht1 ht2 ht3 ht4 h1 hd1 h2 hd2
  unfold readC
  rw [splitSegs_append_nl _ [] hrow]
  rw [show splitSegs ([] : List Char) = [] from rfl]
  simp only [List.filterMap_cons, List.filterMap_nil, hline]
  simp only [List.foldlM_cons, List.foldlM_nil, readRow, hdist, hpval]
  by_cases hle : dist ≤ maxd <;> simp [hle, dinsert]

/-- Python float() on the text 0.05, evaluated symbolically over ℚ. -/
theorem pyFloat_005 : pyFloat "0.05".data = some (1 / 20 : ℚ) := by
  rw [show pyFloat "0.05".data = some ((digitsVal ['0'] : ℚ)
      + (digitsVal ['0', '5'] : ℚ) / (10 : ℚ) ^ (['0', '5'] : List Char).length) from rfl]
  rw [show digitsVal ['0'] = 0 from rfl, show digitsVal ['0', '5'] = 5 from rfl,
    show (['0', '5'] : List Char).length = 2 from rfl]
  norm_num

/-- Python float() on the text 0.0001, evaluated symbolically over ℚ. -/
theorem pyFloat_00001 : pyFloat "0.0001".data = some (1 / 10000 : ℚ) := by
  rw [show pyFloat "0.0001".data = some ((digitsVal ['0'] : ℚ)
      + (digitsVal ['0', '0', '0', '1'] : ℚ) / (10 : ℚ)
        ^ (['0', '0', '0', '1'] : List Char).length) from rfl]
  rw [show digitsVal ['0'] = 0 from rfl, show digitsVal ['0', '0', '0', '1'] = 1 from rfl,
    show (['0', '0', '0', '1'] : List Char).length = 4 from rfl]
  norm_num

/-- Python float() on the text 5.0, evaluated symbolically over ℚ. -/
theorem pyFloat_50 : pyFloat "5.0".data = some (5 : ℚ) := by
  rw [show pyFloat "5.0".data = some ((digitsVal ['5'] : ℚ)
      + (digitsVal ['0'] : ℚ) / (10 : ℚ) ^ (['0'] : List Char).length) from rfl]
  rw [show digitsVal ['5'] = 5 from rfl, show digitsVal ['0'] = 0 from rfl,
    show (['0'] : List Char).length = 1 from rfl]
  norm_num

/-- Python float() on the text 0.1, evaluated symbolically over ℚ. -/
theorem pyFloat_01 : pyFloat "0.1".data = some (1 / 10 : ℚ) := by
  rw [show pyFloat "0.1".data = some ((digitsVal ['0'] : ℚ)
      + (digitsVal ['1'] : ℚ) / (10 : ℚ) ^ (['1'] : List Char).length) from rfl]
  rw [show digitsVal ['0'] = 0 from rfl, show digitsVal ['1'] = 1 from rfl,
    show (['1'] : List Char).length = 1 from rfl]
  norm_num

/-- C1: a newline-terminated line of five tab-separated fields — reference
id, query id, distance, p-value and numerator/denominator — is parsed by
read with float conversion of distance and p-value and integer conversion
of the shared-hash pair; the row is kept exactly when the distance is at
most the threshold, stored under the query id and the base name of the
reference id. -/
theorem read_parses_line (g1 g2 g3 g4 d1 d2 : List Char) (maxd dist pval : ℚ)
    (hg1 : g1 ≠ []) (hg2 : g2 ≠ []) (hg3 : g3 ≠ []) (hg4 : g4 ≠ [])
    (ht1 : '\t' ∉ g1) (ht2 : '\t' ∉ g2) (ht3 : '\t' ∉ g3) (ht4 : '\t' ∉ g4)
    (hn1 : '\n' ∉ g1) (hn2 : '\n' ∉ g2) (hn3 : '\n' ∉ g3) (hn4 : '\n' ∉ g4)
    (h1 : d1 ≠ []) (hd1 : ∀ c ∈ d1, c.isDigit = true)
    (h2 : d2 ≠ []) (hd2 : ∀ c ∈ d2, c.isDigit = true)
    (hdist : pyFloat g3 = some dist) (hpval : pyFloat g4 = some pval) :
    readC ((g1 ++ ('\t' :: (g2 ++ ('\t' :: (g3 ++ ('\t' :: (g4 ++ ('\t' :: (d1 ++ '/' :: d2))))))))) ++ ['\n']) maxd
      = .ok (if dist ≤ maxd then
          [((⟨g2⟩, ⟨basenameL g1⟩), (dist, pval, digitsVal d1, digitsVal d2))]
        else []) :=
  readC_single_row g1 g2 g3 g4 d1 d2 maxd dist pval hg1 hg2 hg3 hg4 ht1 ht2 ht3 ht4
    hn1 hn2 hn3 hn4 h1 hd1 h2 hd2 hdist hpval

/-- Witness for C1: the spec's synthetic line with threshold 1/10 yields
the record, and with threshold 1/100 it is excluded. -/
theorem read_parses_line_witness :
    readC "refA\tqryA\t0.05\t0.0001\t10/400\n".data (1/10)
      = .ok [(("qryA", "refA"), (1/20, 1/10000, 10, 400))] ∧
    readC "refA\tqryA\t0.05\t0.0001\t10/400\n".data (1/100)
      = .ok [] := by
  have hcast : "refA\tqryA\t0.05\t0.0001\t10/400\n".data
      = ("refA".data ++ ('\t' :: ("qryA".data ++ ('\t' :: ("0.05".data ++ ('\t' :: ("0.0001".data ++ ('\t' :: ("10".data ++ '/' :: "400".data))))))))) ++ ['\n'] := rfl
  constructor
  · rw [hcast]
    rw [read_parses_line "refA".data "qryA".data "0.05".data "0.0001".data "10".data "400".data
      (1/10) (1/20) (1/10000) (by decide) (by decide) (by decide) (by decide) (by decide)
      (by decide) (by decide) (by decide) (by decide) (by decide) (by decide) (by decide)
      (by decide) (by decide) (by decide) (by decide) pyFloat_005 pyFloat_00001]
    rw [if_pos (show (1/20 : ℚ) ≤ 1/10 by norm_num)]
    rfl
  · rw [hcast]
    rw [read_parses_line "refA".data "qryA".data "0.05".data "0.0001".data "10".data "400".data
      (1/100) (1/20) (1/10000) (by decide) (by decide) (by decide) (by decide) (by decide)
      (by decide) (by decide) (by decide) (by decide) (by decide) (by decide) (by decide)
      (by decide) (by decide) (by decide) (by decide) pyFloat_005 pyFloat_00001]
    rw [if_neg (show ¬ ((1/20 : ℚ) ≤ 1/100) by norm_num)]

/-- C9: rows are only taken from newline-terminated lines — any trailing
content without a final newline, a well-formed data row included, is
silently ignored by read. -/
theorem read_ignores_unterminated (c t : List Char) (maxd : ℚ) (ht : '\n' ∉ t) :
    readC (c ++ t) maxd = readC c maxd := by
  unfold readC
  rw [splitSegs_append_no_nl c t ht]

/-- Witness for C9: a well-formed final row lacking its newline is dropped,
yielding an empty result. -/
theorem read_ignores_unterminated_witness :
    readC "refA\tqryA\t0.05\t0.0001\t10/400".data 100 = .ok [] := by
  have h := read_ignores_unterminated [] "refA\tqryA\t0.05\t0.0001\t10/400".data 100 (by decide)
  rw [List.nil_append] at h
  rw [h]
  rfl

/-- The file content made of the given newline-terminated lines. -/
def joinLines : List (List Char) → List Char
  | [] => []
  | l :: ls => l ++ '\n' :: joinLines ls

theorem splitSegs_joinLines (ls : List (List Char)) (t : List Char)
    (hls : ∀ l ∈ ls, '\n' ∉ l) (ht : '\n' ∉ t) :
    splitSegs (joinLines ls ++ t) = ls := by
  induction ls with
  | nil => simpa [joinLines] using splitSegs_nil_of_no_nl t ht
  | cons l rest ih =>
    have hl := hls l (List.mem_cons_self l rest)
    have hrest : ∀ x ∈ rest, '\n' ∉ x := fun x hx => hls x (List.mem_cons_of_mem l hx)
    show splitSegs ((l ++ '\n' :: joinLines rest) ++ t) = l :: rest
    rw [List.append_assoc, List.cons_append]
    rw [splitSegs_append_nl _ _ hl, ih hrest]

theorem filterMap_filter_isSome {α β : Type} (f : α → Option β) (l : List α) :
    (l.filter (fun x => (f x).isSome)).filterMap f = l.filterMap f := by
  induction l with
  | nil => rfl
  | cons a t ih =>
    cases hf : f a <;> simp [List.filter_cons, List.filterMap_cons, hf, ih]

/-- C7: lines that do not match the five-field pattern — blank lines,
header lines, the trailing unterminated piece — contribute nothing to the
result of read: the outcome, raising included, equals that of the content
restricted to the matching lines. -/
theorem read_skips_nonmatching (ls : List (List Char)) (t : List Char) (maxd : ℚ)
    (hls : ∀ l ∈ ls, '\n' ∉ l) (ht : '\n' ∉ t) :
    readC (joinLines ls ++ t) maxd
      = readC (joinLines (ls.filter (fun l => (matchLine l).isSome))) maxd := by
  unfold readC
  rw [splitSegs_joinLines ls t hls ht]
  rw [← List.append_nil (joinLines (ls.filter (fun l => (matchLine l).isSome)))]
  rw [splitSegs_joinLines _ [] (fun l hl => hls l (List.mem_of_mem_filter hl))
    (List.not_mem_nil '\n')]
  rw [filterMap_filter_isSome]

/-- Witness for C7: a header line, a blank line and a trailing piece are
skipped; only the data line contributes. -/
theorem read_skips_nonmatching_witness :
    readC (joinLines ["ref\tqry\tdist\tpval\tshared".data, [],
        "a\tb\t0.5\t0.1\t3/10".data] ++ "trail".data) 100
      = readC (joinLines (["ref\tqry\tdist\tpval\tshared".data, [],
          "a\tb\t0.5\t0.1\t3/10".data].filter (fun l => (matchLine l).isSome))) 100 :=
  read_skips_nonmatching _ _ 100 (by decide) (by decide)

/-- The bounds the specification asserts of a parsed row: distance in the
unit interval where it converts, and numerator at most denominator. -/
def rowBounded (r : RawRow) : Bool :=
  (match pyFloat r.dist with
   | some q => decide (0 ≤ q ∧ q ≤ 1)
   | none => true) && decide (digitsVal r.num ≤ digitsVal r.den)

theorem mem_dinsert {α β : Type} [DecidableEq α] (d : List (α × β)) (k : α) (v : β)
    (x : α × β) (hx : x ∈ dinsert d k v) : x = (k, v) ∨ x ∈ d := by
  induction d with
  | nil => simpa [dinsert] using hx
  | cons p t ih =>
    obtain ⟨a, b⟩ := p
    by_cases ha : a = k
    · subst ha
      rw [show dinsert ((a, b) :: t) a v = (a, v) :: t from by simp [dinsert]] at hx
      rcases List.mem_cons.mp hx with h | h
      · exact Or.inl h
      · exact Or.inr (List.mem_cons_of_mem _ h)
    · rw [show dinsert ((a, b) :: t) k v = (a, b) :: dinsert t k v from by
        simp [dinsert, ha]] at hx
      rcases List.mem_cons.mp hx with h | h
      · exact Or.inr (h ▸ List.mem_cons_self _ _)
      · rcases ih h with h2 | h2
        · exact Or.inl h2
        · exact Or.inr (List.mem_cons_of_mem _ h2)

theorem readRows_bounded (maxd : ℚ) (rows : List RawRow) :
    ∀ acc out : DistMap,
      (∀ r ∈ rows, rowBounded r = true) →
      (∀ key dist pval num den, ((key, (dist, pval, num, den)) ∈ acc) →
        num ≤ den ∧ 0 ≤ dist ∧ dist ≤ 1 ∧ dist ≤ maxd) →
      rows.foldlM (readRow maxd) acc = .ok out →
      (∀ key dist pval num den, ((key, (dist, pval, num, den)) ∈ out) →
        num ≤ den ∧ 0 ≤ dist ∧ dist ≤ 1 ∧ dist ≤ maxd) := by
  induction rows with
  | nil =>
    intro acc out _ hacc hfold
    have hfold2 : (Except.ok acc : Except String DistMap) = .ok out := hfold
    injection hfold2 with h2
    subst h2
    exact hacc
  | cons r rest ih =>
    intro acc out hrows hacc hfold
    have hb := hrows r (List.mem_cons_self r rest)
    have hrest : ∀ x ∈ rest, rowBounded x = true :=
      fun x hx => hrows x (List.mem_cons_of_mem r hx)
    rw [List.foldlM_cons] at hfold
    cases hstep : readRow maxd acc r with
    | error e =>
      rw [hstep] at hfold
      have hbad : (Except.error e : Except String DistMap) = .ok out := hfold
      exact Except.noConfusion hbad
    | ok acc2 =>
      rw [hstep] at hfold
      have hfold2 : rest.foldlM (readRow maxd) acc2 = .ok out := hfold
      cases hdist : pyFloat r.dist with
      | none => simp [readRow, hdist] at hstep
      | some dist =>
        cases hpval : pyFloat r.pval with
        | none => simp [readRow, hdist, hpval] at hstep
        | some pval =>
          simp only [readRow, hdist, hpval, Except.ok.injEq] at hstep
          simp only [rowBounded, hdist, Bool.and_eq_true] at hb
          have hb1 := of_decide_eq_true hb.1
          have hb2 := of_decide_eq_true hb.2
          by_cases hle : dist ≤ maxd
          · rw [if_pos hle] at hstep
            subst hstep
            refine ih _ out hrest ?_ hfold2
            intro key d p n dn hm
            rcases mem_dinsert _ _ _ _ hm with he | hm2
            · have h2 := congrArg Prod.snd he
              have hd : d = dist := congrArg (fun z => z.1) h2
              have hp : p = pval := congrArg (fun z => z.2.1) h2
              have hn : n = digitsVal r.num := congrArg (fun z => z.2.2.1) h2
              have hdn : dn = digitsVal r.den := congrArg (fun z => z.2.2.2) h2
              subst hd; subst hp; subst hn; subst hdn
              exact ⟨hb2, hb1.1, hb1.2, hle⟩
            · exact hacc key d p n dn hm2
          · rw [if_neg hle] at hstep
            subst hstep
            exact ih _ out hrest hacc hfold2

theorem readRows_dist_le (maxd : ℚ) (rows : List RawRow) :
    ∀ acc out : DistMap,
      (∀ key dist pval num den, ((key, (dist, pval, num, den)) ∈ acc) → dist ≤ maxd) →
      rows.foldlM (readRow maxd) acc = .ok out →
      (∀ key dist pval num den, ((key, (dist, pval, num, den)) ∈ out) → dist ≤ maxd) := by
  induction rows with
  | nil =>
    intro acc out hacc hfold
    have hfold2 : (Except.ok acc : Except String DistMap) = .ok out := hfold
    injection hfold2 with h2
    subst h2
    exact hacc
  | cons r rest ih =>
    intro acc out hacc hfold
    rw [List.foldlM_cons] at hfold
    cases hstep : readRow maxd acc r with
    | error e =>
      rw [hstep] at hfold
      have hbad : (Except.error e : Except String DistMap) = .ok out := hfold
      exact Except.noConfusion hbad
    | ok acc2 =>
      rw [hstep] at hfold
      have hfold2 : rest.foldlM (readRow maxd) acc2 = .ok out := hfold
      cases hdist : pyFloat r.dist with
      | none => simp [readRow, hdist] at hstep
      | some dist =>
        cases hpval : pyFloat r.pval with
        | none => simp [readRow, hdist, hpval] at hstep
        | some pval =>
          simp only [readRow, hdist, hpval, Except.ok.injEq] at hstep
          by_cases hle : dist ≤ maxd
          · rw [if_pos hle] at hstep
            subst hstep
            refine ih _ out ?_ hfold2
            intro key d p n dn hm
            rcases mem_dinsert _ _ _ _ hm with he | hm2
            · have h2 := congrArg Prod.snd he
              have hd : d = dist := congrArg (fun z => z.1) h2
              subst hd
              exact hle
            · exact hacc key d p n dn hm2
          · rw [if_neg hle] at hstep
            subst hstep
            exact ih _ out hacc hfold2

/-- C6 (amended): every record retained by read has distance at most the
caller threshold, unconditionally; and whenever every row parsed from the
file satisfies the bounds — as genuine tool output does — every retained
record has numerator at most denominator and distance inside the unit
interval.  The parser itself enforces neither of the two bounds. -/
theorem read_records_bounded (content : List Char) (maxd : ℚ) (out : DistMap)
    (hok : readC content maxd = .ok out) :
    (∀ key dist pval num den, ((key, (dist, pval, num, den)) ∈ out) → dist ≤ maxd) ∧
    ((∀ r ∈ (splitSegs content).filterMap matchLine, rowBounded r = true) →
      ∀ key dist pval num den, ((key, (dist, pval, num, den)) ∈ out) →
        num ≤ den ∧ 0 ≤ dist ∧ dist ≤ 1) :=
  ⟨readRows_dist_le maxd ((splitSegs content).filterMap matchLine) [] out
    (by intro key d p n dn hm; simp at hm) hok,
   fun hrows key dist pval num den hm =>
    have h := readRows_bounded maxd ((splitSegs content).filterMap matchLine) [] out hrows
      (by intro key d p n dn hm2; simp at hm2) hok key dist pval num den hm
    ⟨h.1, h.2.1, h.2.2.1⟩⟩

/-- Witness for C6 (amended): the spec's synthetic line evaluates to one
retained record, and the theorem yields all four bounds for it. -/
theorem read_records_bounded_witness :
    readC "refA\tqryA\t0.05\t0.0001\t10/400\n".data 1
      = .ok [(("qryA", "refA"), ((1/20 : ℚ), (1/10000 : ℚ), 10, 400))] ∧
    (10 : ℕ) ≤ 400 ∧ (0 : ℚ) ≤ 1/20 ∧ (1/20 : ℚ) ≤ 1 ∧ (1/20 : ℚ) ≤ 1 := by
  have hok : readC "refA\tqryA\t0.05\t0.0001\t10/400\n".data 1
      = .ok [(("qryA", "refA"), ((1/20 : ℚ), (1/10000 : ℚ), digitsVal "10".data,
          digitsVal "400".data))] := by
    rw [show "refA\tqryA\t0.05\t0.0001\t10/400\n".data
        = ("refA".data ++ ('\t' :: ("qryA".data ++ ('\t' :: ("0.05".data ++ ('\t' :: ("0.0001".data ++ ('\t' :: ("10".data ++ '/' :: "400".data))))))))) ++ ['\n'] from rfl]
    rw [readC_single_row "refA".data "qryA".data "0.05".data "0.0001".data "10".data
      "400".data 1 (1/20) (1/10000) (by decide) (by decide) (by decide) (by decide)
      (by decide) (by decide) (by decide) (by decide) (by decide) (by decide) (by decide)
      (by decide) (by decide) (by decide) (by decide) (by decide) pyFloat_005 pyFloat_00001]
    rw [if_pos (show (1/20 : ℚ) ≤ 1 by norm_num)]
    rfl
  have hrows : ∀ r ∈ (splitSegs "refA\tqryA\t0.05\t0.0001\t10/400\n".data).filterMap matchLine,
      rowBounded r = true := by
    rw [show (splitSegs "refA\tqryA\t0.05\t0.0001\t10/400\n".data).filterMap matchLine
        = [⟨"refA".data, "qryA".data, "0.05".data, "0.0001".data, "10".data, "400".data⟩]
      from rfl]
    intro r hr
    have hre := List.mem_singleton.mp hr
    subst hre
    rw [show rowBounded ⟨"refA".data, "qryA".data, "0.05".data, "0.0001".data, "10".data,
          "400".data⟩
        = ((match pyFloat "0.05".data with
            | some q => decide (0 ≤ q ∧ q ≤ 1)
            | none => true) && decide (digitsVal "10".data ≤ digitsVal "400".data)) from rfl]
    rw [pyFloat_005]
    show decide (0 ≤ (1/20 : ℚ) ∧ (1/20 : ℚ) ≤ 1)
      && decide (digitsVal "10".data ≤ digitsVal "400".data) = true
    rw [Bool.and_eq_true]
    exact ⟨decide_eq_true (by norm_num), decide_eq_true (by decide)⟩
  have hb := (read_records_bounded "refA\tqryA\t0.05\t0.0001\t10/400\n".data 1 _ hok).2 hrows
    ("qryA", "refA") (1/20) (1/10000) (digitsVal "10".data) (digitsVal "400".data)
    (List.mem_singleton.mpr rfl)
  have hle := (read_records_bounded "refA\tqryA\t0.05\t0.0001\t10/400\n".data 1 _ hok).1
    ("qryA", "refA") (1/20) (1/10000) (digitsVal "10".data) (digitsVal "400".data)
    (List.mem_singleton.mpr rfl)
  exact ⟨hok, hb.1, hb.2.1, hb.2.2, hle⟩

/-- C6 counterexample: read keeps a row whose numerator exceeds its
denominator and whose distance exceeds 1 whenever the caller threshold
allows it — the parser checks neither bound. -/
theorem read_bounds_counterexample :
    readC "a\tb\t5.0\t0.1\t500/400\n".data 100
      = .ok [(("b", "a"), ((5 : ℚ), (1/10 : ℚ), 500, 400))] ∧
    ¬ ((500 : ℕ) ≤ 400) ∧ ¬ ((5 : ℚ) ≤ 1) := by
  refine ⟨?_, by decide, by norm_num⟩
  rw [show "a\tb\t5.0\t0.1\t500/400\n".data
      = ("a".data ++ ('\t' :: ("b".data ++ ('\t' :: ("5.0".data ++ ('\t' :: ("0.1".data ++ ('\t' :: ("500".data ++ '/' :: "400".data))))))))) ++ ['\n'] from rfl]
  rw [readC_single_row "a".data "b".data "5.0".data "0.1".data "500".data "400".data 100
    5 (1/10) (by decide) (by decide) (by decide) (by decide) (by decide) (by decide)
    (by decide) (by decide) (by decide) (by decide) (by decide) (by decide) (by decide)
    (by decide) (by decide) (by decide) pyFloat_50 pyFloat_01]
  rw [if_pos (show (5 : ℚ) ≤ 100 by norm_num)]
  rfl

/-! ## Lemmas about the dictionary model and the re-keying loop -/

theorem dget_mem {α β : Type} [DecidableEq α] (d : List (α × β)) (k : α) (v : β)
    (h : dget d k = some v) : (k, v) ∈ d := by
  induction d with
  | nil => simp [dget] at h
  | cons p t ih =>
    obtain ⟨a, b⟩ := p
    by_cases ha : a = k
    · subst ha
      rw [show dget ((a, b) :: t) a = some b from by simp [dget]] at h
      injection h with h2
      subst h2
      exact List.mem_cons_self _ _
    · rw [show dget ((a, b) :: t) k = dget t k from by simp [dget, ha]] at h
      exact List.mem_cons_of_mem _ (ih h)

theorem dget_eq_of_mem {α β : Type} [DecidableEq α] (d : List (α × β)) (k : α) (v : β)
    (hnd : (d.map Prod.fst).Nodup) (hm : (k, v) ∈ d) : dget d k = some v := by
  induction d with
  | nil => simp at hm
  | cons p t ih =>
    obtain ⟨a, b⟩ := p
    rw [List.map_cons, List.nodup_cons] at hnd
    rcases List.mem_cons.mp hm with he | hm2
    · have h1 : k = a := congrArg Prod.fst he
      have h2 : v = b := congrArg Prod.snd he
      subst h1; subst h2
      simp [dget]
    · have ha : ¬ a = k := by
        intro he2
        subst he2
        exact hnd.1 (List.mem_map.mpr ⟨(a, v), hm2, rfl⟩)
      rw [show dget ((a, b) :: t) k = dget t k from by simp [dget, ha]]
      exact ih hnd.2 hm2

theorem nodup_keys_unique {α β : Type} [DecidableEq α] (d : List (α × β)) (k : α)
    (v1 v2 : β) (hnd : (d.map Prod.fst).Nodup) (h1 : (k, v1) ∈ d) (h2 : (k, v2) ∈ d) :
    v1 = v2 := by
  have e1 := dget_eq_of_mem d k v1 hnd h1
  have e2 := dget_eq_of_mem d k v2 hnd h2
  rw [e1] at e2
  exact Option.some_injective _ e2

theorem dinsert_not_mem {α β : Type} [DecidableEq α] (d : List (α × β)) (k : α) (v : β)
    (h : k ∉ d.map Prod.fst) : dinsert d k v = d ++ [(k, v)] := by
  induction d with
  | nil => rfl
  | cons p t ih =>
    obtain ⟨a, b⟩ := p
    have ha : ¬ a = k := by
      intro he
      exact h (List.mem_map.mpr ⟨(a, b), List.mem_cons_self _ _, he⟩)
    have ht : k ∉ t.map Prod.fst := by
      intro hm
      obtain ⟨p2, hp2, hpe⟩ := List.mem_map.mp hm
      exact h (List.mem_map.mpr ⟨p2, List.mem_cons_of_mem _ hp2, hpe⟩)
    rw [show dinsert ((a, b) :: t) k v = (a, b) :: dinsert t k v from by simp [dinsert, ha]]
    rw [ih ht]
    rfl

theorem foldl_dinsert_eq_append {α β : Type} [DecidableEq α] :
    ∀ l acc : List (α × β), ((acc ++ l).map Prod.fst).Nodup →
      l.foldl (fun a p => dinsert a p.1 p.2) acc = acc ++ l := by
  intro l
  induction l with
  | nil => intro acc h; simp
  | cons p t ih =>
    intro acc h
    obtain ⟨k, v⟩ := p
    have hk : k ∉ acc.map Prod.fst := by
      intro hm
      rw [List.map_append, List.nodup_append] at h
      exact h.2.2 hm (List.mem_map.mpr ⟨(k, v), List.mem_cons_self _ _, rfl⟩)
    rw [List.foldl_cons]
    rw [show dinsert acc k v = acc ++ [(k, v)] from dinsert_not_mem acc k v hk]
    rw [ih (acc ++ [(k, v)]) (by rw [List.append_assoc]; exact h)]
    rw [List.append_assoc]
    rfl

theorem dictOf_eq_self {α β : Type} [DecidableEq α] (l : List (α × β))
    (h : (l.map Prod.fst).Nodup) : dictOf l = l := by
  have h2 := foldl_dinsert_eq_append l [] (by simpa using h)
  simpa [dictOf] using h2

theorem invert_eq (d : List (String × String)) (h : (d.map Prod.snd).Nodup) :
    invert d = d.map (fun p => (p.2, p.1)) := by
  apply dictOf_eq_self
  rw [List.map_map]
  rw [show (Prod.fst ∘ fun p : String × String => (p.2, p.1)) = Prod.snd from
    funext fun p => rfl]
  exact h

theorem currentRefMap_eq (ref : List (String × String))
    (h : (ref.map (fun p => basename p.2)).Nodup) :
    currentRefMap ref = ref.map (fun p => (basename p.2, p.2)) := by
  apply dictOf_eq_self
  rw [List.map_map]
  rw [show (Prod.fst ∘ fun p : String × String => (basename p.2, p.2))
      = (fun p : String × String => basename p.2) from funext fun p => rfl]
  exact h

theorem dget_invert (d : List (String × String)) (q qp : String)
    (h : (d.map Prod.snd).Nodup) (hm : (q, qp) ∈ d) :
    dget (invert d) qp = some q := by
  rw [invert_eq d h]
  apply dget_eq_of_mem
  · rw [List.map_map]
    rw [show (Prod.fst ∘ fun p : String × String => (p.2, p.1)) = Prod.snd from
      funext fun p => rfl]
    exact h
  · exact List.mem_map.mpr ⟨(q, qp), hm, rfl⟩

theorem dget_currentRef (ref : List (String × String)) (r rp : String)
    (h : (ref.map (fun p => basename p.2)).Nodup) (hm : (r, rp) ∈ ref) :
    dget (currentRefMap ref) (basename rp) = some rp := by
  rw [currentRefMap_eq ref h]
  apply dget_eq_of_mem
  · rw [List.map_map]
    rw [show (Prod.fst ∘ fun p : String × String => (basename p.2, p.2))
        = (fun p : String × String => basename p.2) from funext fun p => rfl]
    exact h
  · exact List.mem_map.mpr ⟨(r, rp), hm, rfl⟩

theorem refValues_nodup (ref : List (String × String))
    (h : (ref.map (fun p => basename p.2)).Nodup) : (ref.map Prod.snd).Nodup := by
  have h2 : ((ref.map Prod.snd).map basename).Nodup := by
    rw [List.map_map]
    rw [show (basename ∘ Prod.snd) = (fun p : String × String => basename p.2) from
      funext fun p => rfl]
    exact h
  exact List.Nodup.of_map basename h2

theorem rekeyStep_eq (qry ref : List (String × String)) (out : DistMap)
    (e : (String × String) × MashHit) :
    rekeyStep qry ref out e
      = (rekeyKey qry ref e.1).map (fun k2 => dinsert out k2 e.2) := by
  unfold rekeyStep rekeyKey
  cases h1 : dget (currentRefMap ref) e.1.2 with
  | none => rfl
  | some crp =>
    cases h2 : dget (invert qry) e.1.1 with
    | none => rfl
    | some q2 =>
      show dget (invert ref) crp >>= (fun r => pure (dinsert out (q2, r) e.2))
        = Option.map (fun k2 => dinsert out k2 e.2)
            (dget (invert ref) crp >>= fun r => pure (q2, r))
      cases h3 : dget (invert ref) crp with
      | none => rfl
      | some r2 => rfl

theorem rekey_fold (qry ref : List (String × String)) :
    ∀ rs acc : List ((String × String) × MashHit),
      (∀ e ∈ rs, (rekeyKey qry ref e.1).isSome = true) →
      rs.foldlM (rekeyStep qry ref) acc
        = some (rs.foldl
            (fun a e => dinsert a ((rekeyKey qry ref e.1).getD ("", "")) e.2) acc) := by
  intro rs
  induction rs with
  | nil => intro acc _; rfl
  | cons e t ih =>
    intro acc h
    have he := h e (List.mem_cons_self e t)
    obtain ⟨k2, hk2⟩ := Option.isSome_iff_exists.mp he
    rw [List.foldlM_cons]
    rw [show rekeyStep qry ref acc e = some (dinsert acc k2 e.2) from by
      rw [rekeyStep_eq, hk2]; rfl]
    show t.foldlM (rekeyStep qry ref) (dinsert acc k2 e.2) = _
    rw [ih _ (fun x hx => h x (List.mem_cons_of_mem e hx))]
    rw [List.foldl_cons]
    rw [show (rekeyKey qry ref e.1).getD ("", "") = k2 from by rw [hk2]; rfl]

theorem rekeyKey_spec (qry ref : List (String × String)) (key : String × String)
    (Hqv : (qry.map Prod.snd).Nodup) (Hrb : (ref.map (fun p => basename p.2)).Nodup)
    (hk1 : key.1 ∈ qry.map Prod.snd) (hk2 : key.2 ∈ ref.map (fun p => basename p.2)) :
    ∃ q r rp, rekeyKey qry ref key = some (q, r) ∧ (q, key.1) ∈ qry ∧ (r, rp) ∈ ref ∧
      key.2 = basename rp := by
  obtain ⟨p, hp, hpe⟩ := List.mem_map.mp hk1
  obtain ⟨p2, hp2, hpe2⟩ := List.mem_map.mp hk2
  have hq : dget (invert qry) key.1 = some p.1 := by
    rw [← hpe]
    exact dget_invert qry p.1 p.2 Hqv hp
  have hcr : dget (currentRefMap ref) key.2 = some p2.2 := by
    rw [← hpe2]
    exact dget_currentRef ref p2.1 p2.2 Hrb hp2
  have hr : dget (invert ref) p2.2 = some p2.1 :=
    dget_invert ref p2.1 p2.2 (refValues_nodup ref Hrb) hp2
  refine ⟨p.1, p2.1, p2.2, ?_, ?_, hp2, hpe2.symm⟩
  · unfold rekeyKey
    rw [hcr]
    show dget (invert qry) key.1
        >>= (fun q2 => dget (invert ref) p2.2 >>= fun r2 => pure (q2, r2))
      = some (p.1, p2.1)
    rw [hq]
    show dget (invert ref) p2.2 >>= (fun r2 => pure (p.1, r2)) = some (p.1, p2.1)
    rw [hr]
    rfl
  · rw [← hpe]
    exact hp

/-- C2: under the spec's uniqueness preconditions — distinct caller ids,
no shared path within a map, no shared base name among reference paths —
and with every parsed key drawn from the known query paths and reference
base names, the re-keying loop of Mash.run succeeds and maps the record
stored under a query path and a reference base name to exactly the caller
ids owning that path and that base name. -/
theorem mash_run_rekeys (qry ref : List (String × String)) (results : DistMap)
    (Hqk : (qry.map Prod.fst).Nodup) (Hqv : (qry.map Prod.snd).Nodup)
    (Hrk : (ref.map Prod.fst).Nodup) (Hrb : (ref.map (fun p => basename p.2)).Nodup)
    (Hresk : (results.map Prod.fst).Nodup)
    (Hdom : ∀ e ∈ results, e.1.1 ∈ qry.map Prod.snd ∧
      e.1.2 ∈ ref.map (fun p => basename p.2)) :
    ∃ out, rekey qry ref results = some out ∧
      ∀ q qp r rp hit, (q, qp) ∈ qry → (r, rp) ∈ ref →
        (dget results (qp, basename rp) = some hit ↔ dget out (q, r) = some hit) := by
  have htot : ∀ e ∈ results, (rekeyKey qry ref e.1).isSome = true := by
    intro e he
    obtain ⟨q2, r2, rp2, hF, _, _, _⟩ :=
      rekeyKey_spec qry ref e.1 Hqv Hrb (Hdom e he).1 (Hdom e he).2
    rw [hF]
    rfl
  have hinj : ∀ k1 ∈ results.map Prod.fst, ∀ k2 ∈ results.map Prod.fst,
      (rekeyKey qry ref k1).getD ("", "") = (rekeyKey qry ref k2).getD ("", "") →
      k1 = k2 := by
    intro k1 hk1 k2 hk2 heq
    obtain ⟨e1, he1, he1k⟩ := List.mem_map.mp hk1
    obtain ⟨e2, he2, he2k⟩ := List.mem_map.mp hk2
    subst he1k; subst he2k
    obtain ⟨q1, r1, rp1, hF1, hq1, hr1, hb1⟩ :=
      rekeyKey_spec qry ref e1.1 Hqv Hrb (Hdom e1 he1).1 (Hdom e1 he1).2
    obtain ⟨q2, r2, rp2, hF2, hq2, hr2, hb2⟩ :=
      rekeyKey_spec qry ref e2.1 Hqv Hrb (Hdom e2 he2).1 (Hdom e2 he2).2
    rw [hF1, hF2] at heq
    have hgd : ((q1, r1) : String × String) = (q2, r2) := heq
    have hqe : q1 = q2 := congrArg Prod.fst hgd
    have hre : r1 = r2 := congrArg Prod.snd hgd
    subst hqe; subst hre
    have hpaths : e1.1.1 = e2.1.1 := nodup_keys_unique qry q1 e1.1.1 e2.1.1 Hqk hq1 hq2
    have hrps : rp1 = rp2 := nodup_keys_unique ref r1 rp1 rp2 Hrk hr1 hr2
    have hbn : e1.1.2 = e2.1.2 := by rw [hb1, hb2, hrps]
    exact Prod.ext hpaths hbn
  have hLnodup : ((results.map
      (fun e => ((rekeyKey qry ref e.1).getD ("", ""), e.2))).map Prod.fst).Nodup := by
    rw [List.map_map]
    rw [show (Prod.fst ∘ fun e : (String × String) × MashHit =>
        ((rekeyKey qry ref e.1).getD ("", ""), e.2))
        = ((fun k => (rekeyKey qry ref k).getD ("", "")) ∘ Prod.fst) from
      funext fun e => rfl]
    rw [← List.map_map]
    exact List.Nodup.map_on hinj Hresk
  have hout : rekey qry ref results = some (results.map
      (fun e => ((rekeyKey qry ref e.1).getD ("", ""), e.2))) := by
    unfold rekey
    rw [rekey_fold qry ref results [] htot]
    congr 1
    have hfm : results.foldl
        (fun a e => dinsert a ((rekeyKey qry ref e.1).getD ("", "")) e.2) []
        = dictOf (results.map (fun e => ((rekeyKey qry ref e.1).getD ("", ""), e.2))) := by
      unfold dictOf
      rw [List.foldl_map]
    rw [hfm, dictOf_eq_self _ hLnodup]
  refine ⟨_, hout, ?_⟩
  intro q qp r rp hit hmq hmr
  have hF0 : rekeyKey qry ref (qp, basename rp) = some (q, r) := by
    have hcr : dget (currentRefMap ref) (basename rp) = some rp :=
      dget_currentRef ref r rp Hrb hmr
    have hq : dget (invert qry) qp = some q := dget_invert qry q qp Hqv hmq
    have hr : dget (invert ref) rp = some r :=
      dget_invert ref r rp (refValues_nodup ref Hrb) hmr
    unfold rekeyKey
    rw [hcr]
    show dget (invert qry) qp
        >>= (fun q2 => dget (invert ref) rp >>= fun r2 => pure (q2, r2))
      = some (q, r)
    rw [hq]
    show dget (invert ref) rp >>= (fun r2 => pure (q, r2)) = some (q, r)
    rw [hr]
    rfl
  constructor
  · intro hres
    apply dget_eq_of_mem _ _ _ hLnodup
    have hm := dget_mem results (qp, basename rp) hit hres
    refine List.mem_map.mpr ⟨((qp, basename rp), hit), hm, ?_⟩
    show ((rekeyKey qry ref (qp, basename rp)).getD ("", ""), hit) = ((q, r), hit)
    rw [hF0]
    rfl
  · intro hout2
    have hm := dget_mem _ _ _ hout2
    obtain ⟨e, he, hee⟩ := List.mem_map.mp hm
    have h1e : (rekeyKey qry ref e.1).getD ("", "") = (q, r) := congrArg Prod.fst hee
    have h2e : e.2 = hit := congrArg Prod.snd hee
    obtain ⟨q2, r2, rp2, hF2, hq2, hr2, hb2⟩ :=
      rekeyKey_spec qry ref e.1 Hqv Hrb (Hdom e he).1 (Hdom e he).2
    rw [hF2] at h1e
    have hgd : ((q2, r2) : String × String) = (q, r) := h1e
    have hqe : q2 = q := congrArg Prod.fst hgd
    have hre : r2 = r := congrArg Prod.snd hgd
    subst hqe; subst hre
    have hp1 : e.1.1 = qp := nodup_keys_unique qry q2 e.1.1 qp Hqk hq2 hmq
    have hrp : rp2 = rp := nodup_keys_unique ref r2 rp2 rp Hrk hr2 hmr
    have hkey : e.1 = (qp, basename rp) := Prod.ext hp1 (by rw [hb2, hrp])
    have hres2 := dget_eq_of_mem results e.1 e.2 Hresk he
    rw [hkey, h2e] at hres2
    exact hres2

/-- Witness for C2: the spec's singleton maps and raw parsed result re-key
to the caller ids. -/
theorem mash_run_rekeys_witness :
    ∃ out, rekey [("q1", "/a/q1.fna")] [("r1", "/b/r1.fna")]
        [(("/a/q1.fna", "r1.fna"), ((1 : ℚ), (1 : ℚ), 10, 400))] = some out ∧
      dget out ("q1", "r1") = some ((1 : ℚ), (1 : ℚ), 10, 400) := by
  obtain ⟨out, hout, hiff⟩ := mash_run_rekeys [("q1", "/a/q1.fna")] [("r1", "/b/r1.fna")]
    [(("/a/q1.fna", "r1.fna"), ((1 : ℚ), (1 : ℚ), 10, 400))]
    (by decide) (by decide) (by decide) (by decide) (by decide) (by decide)
  refine ⟨out, hout, ?_⟩
  exact (hiff "q1" "/a/q1.fna" "r1" "/b/r1.fna" ((1 : ℚ), (1 : ℚ), 10, 400)
    (by decide) (by decide)).mp rfl

end Gtdbtk

